/-
Verification of the hunter change-point detection core (src/hunter/analysis.py and
src/hunter/series.py) against its natural-language specification.

Modelling conventions:
* Python floats are modelled as rationals (ℚ); none of the verified control flow
  depends on rounding.
* External library calls (numpy sqrt, scipy ttest_ind_from_stats, and the
  signal_processing_algorithms EDivisive search) are modelled as function
  parameters: the repository code under verification only composes their results.
* The per-series significance tester method
  `TTestSignificanceTester.change_point(index, series, window_endpoints)` is
  abstracted, for the callers in `merge` and `split`, as a parameter
  `cpAt : ℕ → List ℕ → ComparativeStats` (index and window endpoints to stats);
  the series and the sqrt/t-test primitives are fixed inside it.
* A Python exception surfaces as `Option.none`; Python lists are Lean lists.
-/
import Mathlib

/-- Statistics of two adjacent series windows, from `analysis.py` `ComparativeStats`. -/
structure ComparativeStats where
  mean_1 : ℚ
  mean_2 : ℚ
  std_1 : ℚ
  std_2 : ℚ
  pvalue : ℚ
deriving DecidableEq, Repr

/-- Relative change from left to right (`forward_rel_change`). -/
def ComparativeStats.forward_rel_change (s : ComparativeStats) : ℚ :=
  s.mean_2 / s.mean_1 - 1

/-- Relative change from right to left (`backward_rel_change`). -/
def ComparativeStats.backward_rel_change (s : ComparativeStats) : ℚ :=
  s.mean_1 / s.mean_2 - 1

/-- Maximum of the absolute relative changes (`change_magnitude`). -/
def ComparativeStats.change_magnitude (s : ComparativeStats) : ℚ :=
  max |s.forward_rel_change| |s.backward_rel_change|

/-- A candidate change point, from `analysis.py` `ChangePoint` (index plus stats). -/
structure ChangePoint where
  index : ℕ
  stats : ComparativeStats
deriving DecidableEq, Repr

/-- Arithmetic mean of a list, modelling `np.mean`. -/
def npMean (l : List ℚ) : ℚ := l.sum / l.length

/-- Population variance (denominator n), the square of `np.std`. -/
def npVar (l : List ℚ) : ℚ :=
  ((l.map (fun x => (x - npMean l) ^ 2)).sum) / l.length

/--
Embeds `TTestSignificanceTester.compare(left, right)`.
`sqrtQ` models `np.std`'s square root; `tt` models the p-value returned by
scipy's `ttest_ind_from_stats(mean1, std1, n1, mean2, std2, n2)`.
The `ValueError` raised on an empty slice is modelled as `none`.
-/
def ttestCompare (sqrtQ : ℚ → ℚ) (tt : ℚ → ℚ → ℕ → ℚ → ℚ → ℕ → ℚ)
    (left right : List ℚ) : Option ComparativeStats :=
  if left.length = 0 ∨ right.length = 0 then none
  else
    let mean_l := npMean left
    let mean_r := npMean right
    let std_l := if 2 ≤ left.length then sqrtQ (npVar left) else 0
    let std_r := if 2 ≤ right.length then sqrtQ (npVar right) else 0
    let p := if 2 < left.length + right.length then
        tt mean_l std_l left.length mean_r std_r right.length
      else 1
    some ⟨mean_l, mean_r, std_l, std_r, p⟩

/--
Forward pass of `fill_missing`: one sweep that replaces a gap with the carried
previous value, and carries along the (possibly filled) current value.
-/
def ffill (prev : Option ℚ) : List (Option ℚ) → List (Option ℚ)
  | [] => []
  | x :: xs =>
    match x with
    | none => prev :: ffill prev xs
    | some v => some v :: ffill (some v) xs

/--
Embeds `fill_missing`: a forward fill followed by a backward fill (the backward
pass is the forward pass run over the reversed list).
-/
def fill_missing (data : List (Option ℚ)) : List (Option ℚ) :=
  ((ffill none ((ffill none data).reverse)).reverse)

/--
Python's `max(l, key=f)` / `min(l, key=f)` selection: walk the list keeping the
current best, replacing it only when `upd best next` holds, so the first
optimum wins ties.
-/
def pyBest (upd : ChangePoint → ChangePoint → Bool) :
    ChangePoint → List ChangePoint → ChangePoint
  | x, [] => x
  | x, y :: ys => pyBest upd (if upd x y then y else x) ys

/-- Python `max(c :: cs, key=f)`: first element with the largest key. -/
def pyMax (f : ChangePoint → ℚ) (c : ChangePoint) (cs : List ChangePoint) : ChangePoint :=
  pyBest (fun x y => f x < f y) c cs

/-- Python `min(c :: cs, key=f)`: first element with the smallest key. -/
def pyMin (f : ChangePoint → ℚ) (c : ChangePoint) (cs : List ChangePoint) : ChangePoint :=
  pyBest (fun x y => f y < f x) c cs

/--
The `recompute(index)` helper inside `merge`: when `index` is a valid position,
replace the change point at that position by the tester's freshly computed one
(same index, stats recomputed against the window endpoints `we`).
-/
def recomputeAt (cpAt : ℕ → List ℕ → ComparativeStats) (we : List ℕ)
    (i : ℕ) (l : List ChangePoint) : List ChangePoint :=
  match l.get? i with
  | none => l
  | some cp => l.set i ⟨cp.index, cpAt cp.index we⟩

/--
The removal step of `merge`: delete the first occurrence of the selected
weakest change point, rebuild the window endpoints, and run `recompute` at the
deleted position and at the following position, exactly as the source does.
-/
def mergeRemove (cpAt : ℕ → List ℕ → ComparativeStats) (n : ℕ)
    (w : ChangePoint) (l : List ChangePoint) : List ChangePoint :=
  let i := l.findIdx (fun x => x == w)
  let l1 := l.eraseIdx i
  let we := 0 :: (l1.map ChangePoint.index ++ [n])
  recomputeAt cpAt we (i + 1) (recomputeAt cpAt we i l1)

/--
The `merge` loop with explicit fuel; the wrapper `merge` supplies fuel equal to
the list length, which is exactly the maximum number of removals.
-/
def mergeFuel (cpAt : ℕ → List ℕ → ComparativeStats) (n : ℕ) (maxP minM : ℚ) :
    ℕ → List ChangePoint → List ChangePoint
  | 0, l => l
  | fuel + 1, l =>
    match l with
    | [] => []
    | c :: cs =>
      let w := pyMax (fun cp => cp.stats.pvalue) c cs
      if w.stats.pvalue < maxP then
        let w' := pyMin (fun cp => cp.stats.change_magnitude) c cs
        if minM < w'.stats.change_magnitude then c :: cs
        else mergeFuel cpAt n maxP minM fuel (mergeRemove cpAt n w' (c :: cs))
      else mergeFuel cpAt n maxP minM fuel (mergeRemove cpAt n w (c :: cs))

/--
Embeds `merge(change_points, series, max_pvalue, min_magnitude)`; `cpAt`
abstracts `TTestSignificanceTester(max_pvalue).change_point` on the fixed
series and `n` is `len(series)`.
-/
def merge (cpAt : ℕ → List ℕ → ComparativeStats) (n : ℕ) (maxP minM : ℚ)
    (l : List ChangePoint) : List ChangePoint :=
  mergeFuel cpAt n maxP minM l.length l

/--
Embeds `ExtendedSignificanceTester.is_significant` for a total tester model:
the candidate's stats are computed and the p-value compared with the tester's
threshold using `≤`.
-/
def isSignificant (cpAt : ℕ → List ℕ → ComparativeStats) (thr : ℚ)
    (index : ℕ) (we : List ℕ) : Bool :=
  decide ((cpAt index we).pvalue ≤ thr)

/--
Modelled from the spec: the removal step of `merge` as the specification
describes it, recomputing the candidates immediately neighbouring the removed
one — the nearest remaining candidate on its left (position `i - 1` of the
post-deletion list, when the removed one was not first) and the nearest on its
right (position `i`). Used only to exhibit the divergence from the source.
-/
def mergeRemoveClaimed (cpAt : ℕ → List ℕ → ComparativeStats) (n : ℕ)
    (w : ChangePoint) (l : List ChangePoint) : List ChangePoint :=
  let i := l.findIdx (fun x => x == w)
  let l1 := l.eraseIdx i
  let we := 0 :: (l1.map ChangePoint.index ++ [n])
  recomputeAt cpAt we i (if i = 0 then l1 else recomputeAt cpAt we (i - 1) l1)

/-- Modelled from the spec: the `merge` loop using `mergeRemoveClaimed`. -/
def mergeFuelClaimed (cpAt : ℕ → List ℕ → ComparativeStats) (n : ℕ) (maxP minM : ℚ) :
    ℕ → List ChangePoint → List ChangePoint
  | 0, l => l
  | fuel + 1, l =>
    match l with
    | [] => []
    | c :: cs =>
      let w := pyMax (fun cp => cp.stats.pvalue) c cs
      if w.stats.pvalue < maxP then
        let w' := pyMin (fun cp => cp.stats.change_magnitude) c cs
        if minM < w'.stats.change_magnitude then c :: cs
        else mergeFuelClaimed cpAt n maxP minM fuel (mergeRemoveClaimed cpAt n w' (c :: cs))
      else mergeFuelClaimed cpAt n maxP minM fuel (mergeRemoveClaimed cpAt n w (c :: cs))

/-- Modelled from the spec: `merge` with the neighbour recomputation the claim states. -/
def mergeClaimed (cpAt : ℕ → List ℕ → ComparativeStats) (n : ℕ) (maxP minM : ℚ)
    (l : List ChangePoint) : List ChangePoint :=
  mergeFuelClaimed cpAt n maxP minM l.length l

/-- The window `series[start:end]` with `end = min(start + window_len, len(series))`. -/
def windowSlice (series : List (Option ℚ)) (wl start : ℕ) : List (Option ℚ) :=
  (series.drop start).take (min (start + wl) series.length - start)

/--
The indices contributed by one window of `split`: the library's in-window
change points (`ediv thr slice`, modelling `EDivisive.get_change_points`),
shifted by the window offset and sorted, as in the source.
-/
def newWindowIndexes (ediv : ℚ → List (Option ℚ) → List ℕ)
    (series : List (Option ℚ)) (wl : ℕ) (thr : ℚ) (start : ℕ) : List ℕ :=
  List.insertionSort (· ≤ ·) ((ediv thr (windowSlice series wl start)).map (· + start))

/--
One iteration of the window loop in `split`: compute the window's sorted new
indices, advance `start` to `max(last_new_change_point_index, start + step)`
with `step = window_len / 2`, and append the new indices.
-/
def splitStep (ediv : ℚ → List (Option ℚ) → List ℕ)
    (series : List (Option ℚ)) (wl : ℕ) (thr : ℚ)
    (start : ℕ) (idx : List ℕ) : ℕ × List ℕ :=
  let ni := newWindowIndexes ediv series wl thr start
  (max (ni.getLast?.getD 0) (start + wl / 2), idx ++ ni)

/--
The window loop of `split` with explicit fuel; `none` signals fuel exhaustion,
which for `window_len ≥ 2` never happens with the fuel `split` supplies.
-/
def splitGo (ediv : ℚ → List (Option ℚ) → List ℕ)
    (series : List (Option ℚ)) (wl : ℕ) (thr : ℚ) :
    ℕ → ℕ → List ℕ → Option (List ℕ)
  | 0, _, _ => none
  | fuel + 1, start, idx =>
    if start < series.length then
      let st := splitStep ediv series wl thr start idx
      splitGo ediv series wl thr fuel st.1 st.2
    else some idx

/--
Embeds `split(series, window_len, max_pvalue)`: run the window loop from
`start = 0`, then compute each collected index's stats against the global
window endpoints `[0] + indexes + [len(series)]`.
-/
def split (ediv : ℚ → List (Option ℚ) → List ℕ)
    (cpAt : ℕ → List ℕ → ComparativeStats)
    (series : List (Option ℚ)) (wl : ℕ) (thr : ℚ) : List ChangePoint :=
  let idx := (splitGo ediv series wl thr (series.length + 1) 0 []).getD []
  let we := 0 :: (idx ++ [series.length])
  idx.map (fun i => ⟨i, cpAt i we⟩)

/--
Embeds `compute_change_points(series, window_len, max_pvalue, min_magnitude)`:
`split` run with the tenfold relaxed threshold, then `merge` with the real one.
-/
def compute_change_points (ediv : ℚ → List (Option ℚ) → List ℕ)
    (cpAt : ℕ → List ℕ → ComparativeStats)
    (series : List (Option ℚ)) (wl : ℕ) (maxP minM : ℚ) : List ChangePoint :=
  merge cpAt series.length maxP minM (split ediv cpAt series wl (maxP * 10))

/--
Embeds `compute_change_points_orig(series, max_pvalue)`; `edivOrig` models the
un-windowed `EDivisive.get_change_points` with the permutation tester at the
given threshold and `cpAtOrig` that tester's `change_point` on the series.
-/
def compute_change_points_orig (edivOrig : ℚ → List (Option ℚ) → List ℕ)
    (cpAtOrig : ℕ → List ℕ → ComparativeStats)
    (series : List (Option ℚ)) (maxP : ℚ) : List ChangePoint :=
  let idx := edivOrig maxP series
  let we := 0 :: (idx ++ [series.length])
  idx.map (fun i => ⟨i, cpAtOrig i we⟩)

/-- Metric metadata, from `series.py` `Metric`. -/
structure MetricInfo where
  direction : ℤ
  scale : ℚ
  unit : String
deriving DecidableEq, Repr

/-- Analysis options, from `series.py` `AnalysisOptions`. -/
structure AnalysisOptions where
  window_len : ℕ
  max_pvalue : ℚ
  min_magnitude : ℚ
  orig_edivisive : Bool
deriving DecidableEq, Repr

/--
Time series of metric values, from `series.py` `Series`. Python's
insertion-ordered dicts are modelled as association lists.
-/
structure Series where
  test_name : String
  branch : Option String
  time : List ℤ
  metrics : List (String × MetricInfo)
  data : List (String × List (Option ℚ))
  attributes : List (String × List String)
deriving DecidableEq, Repr

/-- A change point of a single metric, from `series.py` `ChangePoint`. -/
structure SeriesChangePoint where
  metric : String
  index : ℕ
  time : ℤ
  stats : ComparativeStats
deriving DecidableEq, Repr

/-- A group of change points at the same index, from `series.py` `ChangePointGroup`. -/
structure ChangePointGroup where
  index : ℕ
  time : ℤ
  prev_time : ℤ
  attributes : List (String × String)
  prev_attributes : List (String × String)
  changes : List SeriesChangePoint
deriving DecidableEq, Repr

/--
Python list indexing `l[i]` including negative indices counting from the end;
an out-of-range access (an `IndexError` in Python, never reached on the
verified paths) yields the default.
-/
def pyGet (l : List α) (i : ℤ) (d : α) : α :=
  if i < 0 then l.getD (l.length - (-i).toNat) d else l.getD i.toNat d

/-- Embeds `Series.attributes_at(index)`: a snapshot of every attribute at the index. -/
def Series.attributes_at (s : Series) (i : ℤ) : List (String × String) :=
  s.attributes.map (fun kv => (kv.1, pyGet kv.2 i ""))

/--
Embeds `AnalyzedSeries.__compute_change_points`: for every metric, in `data`
order, fill gaps and run the configured change-point pipeline, then attach the
metric name and timestamp to each change point.
-/
def computeChangePointsMap (ediv edivOrig : ℚ → List (Option ℚ) → List ℕ)
    (cpAt cpAtOrig : List (Option ℚ) → ℕ → List ℕ → ComparativeStats)
    (s : Series) (o : AnalysisOptions) : List (String × List SeriesChangePoint) :=
  s.data.map (fun mv =>
    let values := fill_missing mv.2
    let cps :=
      if o.orig_edivisive then
        compute_change_points_orig edivOrig (cpAtOrig values) values o.max_pvalue
      else
        compute_change_points ediv (cpAt values) values o.window_len o.max_pvalue
          o.min_magnitude
    (mv.1, cps.map (fun c => ⟨mv.1, c.index, pyGet s.time c.index 0, c.stats⟩)))

/-- Runs of consecutive elements sharing the same `index`, modelling `itertools.groupby`. -/
def groupRuns : List SeriesChangePoint → List (List SeriesChangePoint)
  | [] => []
  | c :: cs =>
    match groupRuns cs with
    | [] => [[c]]
    | [] :: gs => [c] :: [] :: gs
    | (d :: ds) :: gs =>
      if c.index = d.index then (c :: d :: ds) :: gs else [c] :: (d :: ds) :: gs

/--
Embeds `AnalyzedSeries.__group_change_points_by_time`: concatenate all metrics'
change points, sort them by index (Python's stable sort), and turn each run of
equal indices into one `ChangePointGroup` with attribute snapshots.
-/
def groupChangePointsByTime (s : Series)
    (m : List (String × List SeriesChangePoint)) : List ChangePointGroup :=
  let changes := (m.map Prod.snd).flatten
  let sorted := List.insertionSort (fun a b => a.index ≤ b.index) changes
  (groupRuns sorted).filterMap (fun g =>
    match g with
    | [] => none
    | c :: _ =>
      some ⟨c.index, pyGet s.time (c.index : ℤ) 0, pyGet s.time ((c.index : ℤ) - 1) 0,
        s.attributes_at (c.index : ℤ), s.attributes_at ((c.index : ℤ) - 1), g⟩)

/-- Analyzed series, from `series.py` `AnalyzedSeries`. -/
structure AnalyzedSeries where
  series : Series
  options : AnalysisOptions
  change_points : List (String × List SeriesChangePoint)
  change_points_by_time : List ChangePointGroup
deriving DecidableEq, Repr

/--
Embeds `Series.analyze` / `AnalyzedSeries.__init__`: eagerly compute the
per-metric change points and their grouping by time index.
-/
def Series.analyze (ediv edivOrig : ℚ → List (Option ℚ) → List ℕ)
    (cpAt cpAtOrig : List (Option ℚ) → ℕ → List ℕ → ComparativeStats)
    (s : Series) (o : AnalysisOptions) : AnalyzedSeries :=
  let m := computeChangePointsMap ediv edivOrig cpAt cpAtOrig s o
  ⟨s, o, m, groupChangePointsByTime s m⟩

/--
First loop of `get_stable_range`: walk the metric's change points, remembering
the last index seen, and stop at the first change point past `index`.
-/
def stableBegin (index : ℕ) : ℕ → List SeriesChangePoint → ℕ
  | b, [] => b
  | b, cp :: rest => if index < cp.index then b else stableBegin index cp.index rest

/--
Second loop of `get_stable_range`, already applied to the reversed list: walk
back from the end, remembering the last index seen, and stop at the first
change point at or before `index`.
-/
def stableEndRev (index : ℕ) : ℕ → List SeriesChangePoint → ℕ
  | e, [] => e
  | e, cp :: rest => if cp.index ≤ index then e else stableEndRev index cp.index rest

/--
Embeds `AnalyzedSeries.get_stable_range(metric, index)` on the metric's
change-point list `cps` with `n = len(self.time())`.
-/
def getStableRange (cps : List SeriesChangePoint) (n index : ℕ) : ℕ × ℕ :=
  (stableBegin index 0 cps, stableEndRev index n cps.reverse)

/--
Modelled from the spec: the nearest change-point index at or below `index`
(`0` when there is none).
-/
def nearestBelow (cps : List ℕ) (index : ℕ) : ℕ :=
  match cps.filter (fun c => c ≤ index) with
  | [] => 0
  | c :: cs => cs.foldl max c

/--
Modelled from the spec: the nearest change-point index strictly above `index`
(the series length `n` when there is none).
-/
def nearestAbove (cps : List ℕ) (n index : ℕ) : ℕ :=
  match cps.filter (fun c => index < c) with
  | [] => n
  | c :: cs => cs.foldl min c

theorem pyBest_mem (upd : ChangePoint → ChangePoint → Bool) :
    ∀ (l : List ChangePoint) (x : ChangePoint), pyBest upd x l ∈ x :: l := by
  intro l
  induction l with
  | nil => intro x; simp [pyBest]
  | cons y ys ih =>
    intro x
    simp only [pyBest]
    rcases List.mem_cons.mp (ih (if upd x y then y else x)) with h | h
    · rw [h]
      cases hU : upd x y <;> simp [hU]
    · exact List.mem_cons.mpr (Or.inr (List.mem_cons_of_mem y h))

theorem pyMax_mem (f : ChangePoint → ℚ) (c : ChangePoint) (cs : List ChangePoint) :
    pyMax f c cs ∈ c :: cs :=
  pyBest_mem _ cs c

theorem pyMin_mem (f : ChangePoint → ℚ) (c : ChangePoint) (cs : List ChangePoint) :
    pyMin f c cs ∈ c :: cs :=
  pyBest_mem _ cs c

theorem pyMax_ge (f : ChangePoint → ℚ) :
    ∀ (cs : List ChangePoint) (c z : ChangePoint), z ∈ c :: cs → f z ≤ f (pyMax f c cs) := by
  intro cs
  induction cs with
  | nil =>
    intro c z hz
    rcases List.mem_cons.mp hz with h | h
    · exact h ▸ le_refl _
    · cases h
  | cons y ys ih =>
    intro c z hz
    have hstep : pyMax f c (y :: ys) = pyMax f (if f c < f y then y else c) ys := by
      simp only [pyMax, pyBest, decide_eq_true_eq]
    have hc : f c ≤ f (if f c < f y then y else c) := by
      by_cases h : f c < f y
      · rw [if_pos h]; exact le_of_lt h
      · rw [if_neg h]
    have hy : f y ≤ f (if f c < f y then y else c) := by
      by_cases h : f c < f y
      · rw [if_pos h]
      · rw [if_neg h]; exact le_of_not_lt h
    rcases List.mem_cons.mp hz with h | h
    · subst h
      exact hstep ▸ le_trans hc (ih _ _ (List.mem_cons_self _ _))
    · rcases List.mem_cons.mp h with h' | h'
      · subst h'
        exact hstep ▸ le_trans hy (ih _ _ (List.mem_cons_self _ _))
      · exact hstep ▸ ih _ _ (List.mem_cons_of_mem _ h')

theorem pyMin_le (f : ChangePoint → ℚ) :
    ∀ (cs : List ChangePoint) (c z : ChangePoint), z ∈ c :: cs → f (pyMin f c cs) ≤ f z := by
  intro cs
  induction cs with
  | nil =>
    intro c z hz
    rcases List.mem_cons.mp hz with h | h
    · exact h ▸ le_refl _
    · cases h
  | cons y ys ih =>
    intro c z hz
    have hstep : pyMin f c (y :: ys) = pyMin f (if f y < f c then y else c) ys := by
      simp only [pyMin, pyBest, decide_eq_true_eq]
    have hc : f (if f y < f c then y else c) ≤ f c := by
      by_cases h : f y < f c
      · rw [if_pos h]; exact le_of_lt h
      · rw [if_neg h]
    have hy : f (if f y < f c then y else c) ≤ f y := by
      by_cases h : f y < f c
      · rw [if_pos h]
      · rw [if_neg h]; exact le_of_not_lt h
    rcases List.mem_cons.mp hz with h | h
    · subst h
      exact hstep ▸ le_trans (ih _ _ (List.mem_cons_self _ _)) hc
    · rcases List.mem_cons.mp h with h' | h'
      · subst h'
        exact hstep ▸ le_trans (ih _ _ (List.mem_cons_self _ _)) hy
      · exact hstep ▸ ih _ _ (List.mem_cons_of_mem _ h')

theorem recomputeAt_length (cpAt : ℕ → List ℕ → ComparativeStats) (we : List ℕ)
    (i : ℕ) (l : List ChangePoint) : (recomputeAt cpAt we i l).length = l.length := by
  unfold recomputeAt
  cases h : l.get? i with
  | none => rfl
  | some cp => simp [List.length_set]

theorem mergeRemove_length (cpAt : ℕ → List ℕ → ComparativeStats) (n : ℕ)
    (w : ChangePoint) (l : List ChangePoint) (hw : w ∈ l) :
    (mergeRemove cpAt n w l).length = l.length - 1 := by
  unfold mergeRemove
  simp only [recomputeAt_length]
  have hidx : l.findIdx (fun x => x == w) < l.length :=
    List.findIdx_lt_length_of_exists ⟨w, hw, by simp⟩
  simp [List.length_eraseIdx, hidx]

theorem mergeFuel_post (cpAt : ℕ → List ℕ → ComparativeStats) (n : ℕ) (maxP minM : ℚ) :
    ∀ (fuel : ℕ) (l : List ChangePoint), l.length ≤ fuel →
      mergeFuel cpAt n maxP minM fuel l = [] ∨
      ∀ cp ∈ mergeFuel cpAt n maxP minM fuel l,
        cp.stats.pvalue < maxP ∧ minM < cp.stats.change_magnitude := by
  intro fuel
  induction fuel with
  | zero =>
    intro l hl
    have : l = [] := List.length_eq_zero.mp (Nat.le_zero.mp hl)
    subst this
    exact Or.inl rfl
  | succ f ih =>
    intro l hl
    cases l with
    | nil => exact Or.inl rfl
    | cons c cs =>
      have hl' : cs.length ≤ f := by
        simp only [List.length_cons] at hl
        omega
      simp only [mergeFuel]
      by_cases hp : (pyMax (fun cp => cp.stats.pvalue) c cs).stats.pvalue < maxP
      · rw [if_pos hp]
        by_cases hm :
            minM < (pyMin (fun cp => cp.stats.change_magnitude) c cs).stats.change_magnitude
        · rw [if_pos hm]
          refine Or.inr (fun cp hcp => ⟨?_, ?_⟩)
          · exact lt_of_le_of_lt (pyMax_ge (fun cp => cp.stats.pvalue) cs c cp hcp) hp
          · exact lt_of_lt_of_le hm (pyMin_le (fun cp => cp.stats.change_magnitude) cs c cp hcp)
        · rw [if_neg hm]
          apply ih
          rw [mergeRemove_length cpAt n _ _
            (pyMin_mem (fun cp => cp.stats.change_magnitude) c cs)]
          simp only [List.length_cons]
          omega
      · rw [if_neg hp]
        apply ih
        rw [mergeRemove_length cpAt n _ _ (pyMax_mem (fun cp => cp.stats.pvalue) c cs)]
        simp only [List.length_cons]
        omega

theorem merge_cons_unfold (cpAt : ℕ → List ℕ → ComparativeStats) (n : ℕ) (maxP minM : ℚ)
    (c : ChangePoint) (cs : List ChangePoint) :
    merge cpAt n maxP minM (c :: cs) =
      if (pyMax (fun cp => cp.stats.pvalue) c cs).stats.pvalue < maxP then
        if minM < (pyMin (fun cp => cp.stats.change_magnitude) c cs).stats.change_magnitude
        then c :: cs
        else merge cpAt n maxP minM
          (mergeRemove cpAt n (pyMin (fun cp => cp.stats.change_magnitude) c cs) (c :: cs))
      else merge cpAt n maxP minM
        (mergeRemove cpAt n (pyMax (fun cp => cp.stats.pvalue) c cs) (c :: cs)) := by
  have hmin := mergeRemove_length cpAt n _ (c :: cs)
    (pyMin_mem (fun cp => cp.stats.change_magnitude) c cs)
  have hmax := mergeRemove_length cpAt n _ (c :: cs)
    (pyMax_mem (fun cp => cp.stats.pvalue) c cs)
  simp only [List.length_cons, Nat.add_sub_cancel] at hmin hmax
  conv_lhs => rw [merge, List.length_cons, mergeFuel]
  simp only [merge, hmin, hmax]

/--
Concrete tester used for the C1 evidence: recomputation against any endpoint
set yields different stats for the candidate at index 2 than the ones it
carries at the start, so a missing recomputation is observable in the output.
-/
def cpAtC1 : ℕ → List ℕ → ComparativeStats :=
  fun i _ => if i = 2 then ⟨1, 3, 0, 0, Rat.divInt 1 8⟩ else ⟨1, 2, 0, 0, Rat.divInt 1 4⟩

/-- Concrete tester returning fixed stats, used for several witnesses. -/
def cpAtConst : ℕ → List ℕ → ComparativeStats :=
  fun _ _ => ⟨1, Rat.divInt 3 2, 0, 0, Rat.divInt 1 4⟩

theorem magTwo (p : ℚ) : (⟨1, 2, 0, 0, p⟩ : ComparativeStats).change_magnitude = 1 := by
  norm_num [ComparativeStats.change_magnitude, ComparativeStats.forward_rel_change,
    ComparativeStats.backward_rel_change, abs_le]

theorem magThree (p : ℚ) : (⟨1, 3, 0, 0, p⟩ : ComparativeStats).change_magnitude = 2 := by
  norm_num [ComparativeStats.change_magnitude, ComparativeStats.forward_rel_change,
    ComparativeStats.backward_rel_change, abs_le]

theorem magThreeHalves (p : ℚ) :
    (⟨1, Rat.divInt 3 2, 0, 0, p⟩ : ComparativeStats).change_magnitude = Rat.divInt 1 2 := by
  norm_num [ComparativeStats.change_magnitude, ComparativeStats.forward_rel_change,
    ComparativeStats.backward_rel_change, Rat.divInt_eq_div, abs_eq_max_neg, max_def]

/--
C1: the claim states that after removing the weakest candidate, the stats of
both candidates adjacent to the removed one (nearest left and nearest right)
are recomputed. The source instead recomputes the post-deletion positions
`weakest_cp_index` and `weakest_cp_index + 1` — the right neighbour and the
candidate after it — so the left neighbour keeps stale stats. On candidates at
indices 2, 4, 6 (series length 8, `max_pvalue = 1/2`, `min_magnitude = 0`)
where the middle one is removed, `merge` keeps the left neighbour's original
stats even though the tester would now report different ones, while the
spec-modelled `mergeClaimed` refreshes them; the two results differ.
-/
theorem c1_merge_left_neighbor_stale :
    merge cpAtC1 8 (Rat.divInt 1 2) 0
      [⟨2, ⟨1, 2, 0, 0, Rat.divInt 1 4⟩⟩, ⟨4, ⟨1, 2, 0, 0, 1⟩⟩,
        ⟨6, ⟨1, 2, 0, 0, Rat.divInt 1 4⟩⟩]
      = [⟨2, ⟨1, 2, 0, 0, Rat.divInt 1 4⟩⟩, ⟨6, ⟨1, 2, 0, 0, Rat.divInt 1 4⟩⟩]
  ∧ mergeClaimed cpAtC1 8 (Rat.divInt 1 2) 0
      [⟨2, ⟨1, 2, 0, 0, Rat.divInt 1 4⟩⟩, ⟨4, ⟨1, 2, 0, 0, 1⟩⟩,
        ⟨6, ⟨1, 2, 0, 0, Rat.divInt 1 4⟩⟩]
      = [⟨2, ⟨1, 3, 0, 0, Rat.divInt 1 8⟩⟩, ⟨6, ⟨1, 2, 0, 0, Rat.divInt 1 4⟩⟩]
  ∧ cpAtC1 2 [0, 2, 6, 8] ≠ ⟨1, 2, 0, 0, Rat.divInt 1 4⟩ := by
  refine ⟨?_, ?_, by decide⟩
  · simp +decide [merge, mergeFuel, pyMax, pyMin, pyBest, mergeRemove, recomputeAt,
      cpAtC1, magTwo, List.findIdx, List.findIdx.go, List.eraseIdx, beq_iff_eq, cond_eq_if]
  · simp +decide [mergeClaimed, mergeFuelClaimed, pyMax, pyMin, pyBest, mergeRemoveClaimed,
      recomputeAt, cpAtC1, magTwo, magThree, List.findIdx, List.findIdx.go, List.eraseIdx,
      beq_iff_eq, cond_eq_if]

/--
C2 counterexample: two candidates with p-values `1/2` and `1/4` against
`max_pvalue = 1/2`; every candidate satisfies `pvalue ≤ max_pvalue`, and the
candidate with the largest p-value also has the larger magnitude, yet `merge`
removes it — a removal on weak-p-value grounds although no candidate has
`pvalue > max_pvalue`, contradicting the claim that selection would proceed by
smallest magnitude (which, with both magnitudes above `min_magnitude = 2/5`,
would have removed nothing).
-/
theorem c2_counterexample :
    (⟨2, ⟨1, 2, 0, 0, Rat.divInt 1 2⟩⟩ : ChangePoint).stats.pvalue ≤ Rat.divInt 1 2
  ∧ (⟨4, ⟨1, Rat.divInt 3 2, 0, 0, Rat.divInt 1 4⟩⟩ : ChangePoint).stats.pvalue ≤ Rat.divInt 1 2
  ∧ (⟨2, ⟨1, 2, 0, 0, Rat.divInt 1 2⟩⟩ : ChangePoint).stats.change_magnitude = 1
  ∧ (⟨4, ⟨1, Rat.divInt 3 2, 0, 0, Rat.divInt 1 4⟩⟩ : ChangePoint).stats.change_magnitude
      = Rat.divInt 1 2
  ∧ Rat.divInt 2 5 < Rat.divInt 1 2
  ∧ merge cpAtConst 6 (Rat.divInt 1 2) (Rat.divInt 2 5)
      [⟨2, ⟨1, 2, 0, 0, Rat.divInt 1 2⟩⟩, ⟨4, ⟨1, Rat.divInt 3 2, 0, 0, Rat.divInt 1 4⟩⟩]
      = [⟨4, ⟨1, Rat.divInt 3 2, 0, 0, Rat.divInt 1 4⟩⟩] := by
  refine ⟨by decide, by decide, magTwo _, magThreeHalves _, by decide, ?_⟩
  simp +decide [merge, mergeFuel, pyMax, pyMin, pyBest, mergeRemove, recomputeAt,
    cpAtConst, magTwo, magThreeHalves, List.findIdx, List.findIdx.go, List.eraseIdx,
    beq_iff_eq, cond_eq_if]

/--
C2 (amended): in each `merge` iteration the first-selected candidate is the
one with the largest p-value; it is removed on weak-p-value grounds exactly
when its p-value is `≥ max_pvalue` (so a candidate whose p-value equals
`max_pvalue` is removed on p-value grounds); only when every candidate has
`pvalue < max_pvalue` does selection proceed by smallest magnitude. The
tester's own `is_significant(pvalue, threshold)` is `pvalue ≤ threshold`, a
strictly weaker acceptance test than the one `merge` applies.
-/
theorem c2_amended (cpAt : ℕ → List ℕ → ComparativeStats) (n : ℕ) (maxP minM : ℚ)
    (c : ChangePoint) (cs : List ChangePoint) :
    (∀ cp ∈ c :: cs,
        cp.stats.pvalue ≤ (pyMax (fun cp => cp.stats.pvalue) c cs).stats.pvalue)
  ∧ (maxP ≤ (pyMax (fun cp => cp.stats.pvalue) c cs).stats.pvalue →
      merge cpAt n maxP minM (c :: cs)
        = merge cpAt n maxP minM
            (mergeRemove cpAt n (pyMax (fun cp => cp.stats.pvalue) c cs) (c :: cs)))
  ∧ ((∀ cp ∈ c :: cs, cp.stats.pvalue < maxP) →
      merge cpAt n maxP minM (c :: cs)
        = if minM < (pyMin (fun cp => cp.stats.change_magnitude) c cs).stats.change_magnitude
          then c :: cs
          else merge cpAt n maxP minM
            (mergeRemove cpAt n (pyMin (fun cp => cp.stats.change_magnitude) c cs) (c :: cs)))
  ∧ (∀ thr i we, isSignificant cpAt thr i we = true ↔ (cpAt i we).pvalue ≤ thr) := by
  refine ⟨fun cp hcp => pyMax_ge (fun cp => cp.stats.pvalue) cs c cp hcp, ?_, ?_, ?_⟩
  · intro h
    rw [merge_cons_unfold, if_neg (not_lt.mpr h)]
  · intro h
    rw [merge_cons_unfold,
      if_pos (h _ (pyMax_mem (fun cp => cp.stats.pvalue) c cs))]
  · intro thr i we
    simp [isSignificant]

/--
C2 amended witness: a single candidate with p-value `1` against
`max_pvalue = 1/2` is removed on weak-p-value grounds.
-/
theorem c2_amended_witness :
    merge cpAtConst 4 (Rat.divInt 1 2) 0 [⟨2, ⟨1, 2, 0, 0, 1⟩⟩]
      = merge cpAtConst 4 (Rat.divInt 1 2) 0
          (mergeRemove cpAtConst 4
            (pyMax (fun cp => cp.stats.pvalue) ⟨2, ⟨1, 2, 0, 0, 1⟩⟩ [])
            [⟨2, ⟨1, 2, 0, 0, 1⟩⟩]) :=
  (c2_amended cpAtConst 4 (Rat.divInt 1 2) 0 ⟨2, ⟨1, 2, 0, 0, 1⟩⟩ []).2.1 (by decide)

/--
C3 counterexample: a single candidate with `pvalue = max_pvalue = 1/2`
(significant under `is_significant`) and magnitude `1 > min_magnitude = 0`;
the claim says `merge` returns the list unchanged, but the source's strict
acceptance test removes the candidate and returns the empty list.
-/
theorem c3_counterexample :
    (⟨2, ⟨1, 2, 0, 0, Rat.divInt 1 2⟩⟩ : ChangePoint).stats.pvalue ≤ Rat.divInt 1 2
  ∧ (0 : ℚ) < (⟨2, ⟨1, 2, 0, 0, Rat.divInt 1 2⟩⟩ : ChangePoint).stats.change_magnitude
  ∧ merge cpAtConst 4 (Rat.divInt 1 2) 0 [⟨2, ⟨1, 2, 0, 0, Rat.divInt 1 2⟩⟩] = []
  ∧ ([] : List ChangePoint) ≠ [⟨2, ⟨1, 2, 0, 0, Rat.divInt 1 2⟩⟩] := by
  refine ⟨by decide, by rw [ChangePoint.stats]; rw [magTwo]; norm_num, ?_, by decide⟩
  simp +decide [merge, mergeFuel, pyMax, pyMin, pyBest, mergeRemove, recomputeAt,
    cpAtConst, magTwo, List.findIdx, List.findIdx.go, List.eraseIdx, beq_iff_eq, cond_eq_if]

/--
C3 (amended): `merge` returns either the empty list or a list whose every
change point has `pvalue < max_pvalue` (hence is significant) and
`magnitude > min_magnitude` (hence `≥ min_magnitude`); and whenever every
candidate has `pvalue` strictly below `max_pvalue` and every magnitude already
exceeds `min_magnitude`, `merge` returns the list unchanged.
-/
theorem c3_amended (cpAt : ℕ → List ℕ → ComparativeStats) (n : ℕ) (maxP minM : ℚ)
    (l : List ChangePoint) :
    (merge cpAt n maxP minM l = [] ∨
      ∀ cp ∈ merge cpAt n maxP minM l,
        cp.stats.pvalue < maxP ∧ minM < cp.stats.change_magnitude)
  ∧ ((∀ cp ∈ l, cp.stats.pvalue < maxP) → (∀ cp ∈ l, minM < cp.stats.change_magnitude) →
      merge cpAt n maxP minM l = l) := by
  constructor
  · exact mergeFuel_post cpAt n maxP minM l.length l (le_refl _)
  · intro h1 h2
    cases l with
    | nil => rfl
    | cons c cs =>
      rw [merge_cons_unfold,
        if_pos (h1 _ (pyMax_mem (fun cp => cp.stats.pvalue) c cs)),
        if_pos (h2 _ (pyMin_mem (fun cp => cp.stats.change_magnitude) c cs))]

/--
C3 amended witness: one candidate with p-value `1/4 < 1/2` and magnitude
`1 > 0` survives `merge` unchanged.
-/
theorem c3_amended_witness :
    merge cpAtConst 4 (Rat.divInt 1 2) 0 [⟨2, ⟨1, 2, 0, 0, Rat.divInt 1 4⟩⟩]
      = [⟨2, ⟨1, 2, 0, 0, Rat.divInt 1 4⟩⟩] :=
  (c3_amended cpAtConst 4 (Rat.divInt 1 2) 0 [⟨2, ⟨1, 2, 0, 0, Rat.divInt 1 4⟩⟩]).2
    (by decide) (by simp [magTwo])

/--
C6: `compare(left, right)` fails (raises `ValueError`, the `InsufficientData`
condition) exactly when one of the slices is empty; for non-empty slices it
always produces stats, a slice with fewer than 2 points gets standard
deviation `0`, and when the combined sample count is at most 2 the p-value is
defined as `1` instead of running the t-test.
-/
theorem c6_compare (sqrtQ : ℚ → ℚ) (tt : ℚ → ℚ → ℕ → ℚ → ℚ → ℕ → ℚ)
    (left right : List ℚ) :
    (ttestCompare sqrtQ tt left right = none ↔ left = [] ∨ right = [])
  ∧ ∀ s, ttestCompare sqrtQ tt left right = some s →
      (left.length < 2 → s.std_1 = 0) ∧ (right.length < 2 → s.std_2 = 0) ∧
      (left.length + right.length ≤ 2 → s.pvalue = 1) := by
  unfold ttestCompare
  by_cases hc : left.length = 0 ∨ right.length = 0
  · rw [if_pos hc]
    refine ⟨⟨fun _ => ?_, fun _ => rfl⟩, fun s hs => by simp at hs⟩
    rcases hc with h | h
    · exact Or.inl (List.length_eq_zero.mp h)
    · exact Or.inr (List.length_eq_zero.mp h)
  · rw [if_neg hc]
    refine ⟨⟨fun h => by simp at h, fun h => absurd ?_ hc⟩, fun s hs => ?_⟩
    · rcases h with h | h
      · exact Or.inl (by simp [h])
      · exact Or.inr (by simp [h])
    · simp only [Option.some.injEq] at hs
      subst hs
      refine ⟨fun h => ?_, fun h => ?_, fun h => ?_⟩
      · exact if_neg (by omega)
      · exact if_neg (by omega)
      · exact if_neg (by omega)

/--
C6 witness: `compare([1.0], [])` fails with insufficient data, and
`compare([1.0], [2.0])` yields zero standard deviations and p-value `1`.
-/
theorem c6_compare_witness :
    ttestCompare (fun q => q) (fun _ _ _ _ _ _ => 0) [(1 : ℚ)] [] = none
  ∧ (⟨1, 2, 0, 0, 1⟩ : ComparativeStats).std_1 = 0
  ∧ (⟨1, 2, 0, 0, 1⟩ : ComparativeStats).std_2 = 0
  ∧ (⟨1, 2, 0, 0, 1⟩ : ComparativeStats).pvalue = 1 := by
  have hEq : ttestCompare (fun q => q) (fun _ _ _ _ _ _ => 0) [(1 : ℚ)] [(2 : ℚ)]
      = some ⟨1, 2, 0, 0, 1⟩ := by
    norm_num [ttestCompare, npMean]
  have h2 := (c6_compare (fun q => q) (fun _ _ _ _ _ _ => 0) [(1 : ℚ)] [(2 : ℚ)]).2 _ hEq
  exact ⟨(c6_compare (fun q => q) (fun _ _ _ _ _ _ => 0) [(1 : ℚ)] []).1.mpr (Or.inr rfl),
    h2.1 (by decide), h2.2.1 (by decide), h2.2.2 (by decide)⟩

theorem splitGo_succ (ediv : ℚ → List (Option ℚ) → List ℕ) (series : List (Option ℚ))
    (wl : ℕ) (thr : ℚ) (fuel start : ℕ) (idx : List ℕ) (h : start < series.length) :
    splitGo ediv series wl thr (fuel + 1) start idx
      = splitGo ediv series wl thr fuel
          (max ((newWindowIndexes ediv series wl thr start).getLast?.getD 0) (start + wl / 2))
          (idx ++ newWindowIndexes ediv series wl thr start) := by
  simp only [splitGo, splitStep]
  rw [if_pos h]

theorem splitStep_progress (ediv : ℚ → List (Option ℚ) → List ℕ) (series : List (Option ℚ))
    (wl : ℕ) (thr : ℚ) (start : ℕ) (idx : List ℕ) (hwl : 2 ≤ wl) :
    start < (splitStep ediv series wl thr start idx).1 := by
  have h1 : 1 ≤ wl / 2 := Nat.one_le_div_iff (by omega) |>.mpr hwl
  have : start < start + wl / 2 := by omega
  exact lt_of_lt_of_le this (le_max_right _ _)

theorem splitGo_isSome (ediv : ℚ → List (Option ℚ) → List ℕ) (series : List (Option ℚ))
    (wl : ℕ) (thr : ℚ) (hwl : 2 ≤ wl) :
    ∀ (fuel start : ℕ) (idx : List ℕ), series.length - start < fuel →
      (splitGo ediv series wl thr fuel start idx).isSome := by
  intro fuel
  induction fuel with
  | zero => intro start idx h; omega
  | succ f ih =>
    intro start idx h
    by_cases hs : start < series.length
    · rw [splitGo_succ ediv series wl thr f start idx hs]
      apply ih
      have hp := splitStep_progress ediv series wl thr start idx hwl
      simp only [splitStep] at hp
      omega
    · simp only [splitGo]
      rw [if_neg hs]
      rfl

theorem splitGo_stall (ediv : ℚ → List (Option ℚ) → List ℕ) (series : List (Option ℚ))
    (wl : ℕ) (thr : ℚ) (hwl : wl ≤ 1) (hlen : 0 < series.length)
    (hediv : ∀ t s, ediv t s = []) :
    ∀ fuel, splitGo ediv series wl thr fuel 0 [] = none := by
  have hni : newWindowIndexes ediv series wl thr 0 = [] := by
    simp [newWindowIndexes, hediv]
  have hstep : max ((newWindowIndexes ediv series wl thr 0).getLast?.getD 0) (0 + wl / 2) = 0 := by
    rw [hni]
    have : wl / 2 = 0 := by omega
    simp [this]
  intro fuel
  induction fuel with
  | zero => rfl
  | succ f ih =>
    rw [splitGo_succ ediv series wl thr f 0 [] hlen, hstep, hni]
    exact ih

/--
C4: `compute_change_points` runs `split` with the threshold relaxed to
`max_pvalue * 10` and merges the result with the real threshold; each `split`
iteration with `start < len(series)` searches exactly the window
`series[start : min(start + window_len, len)]`, contributes the found indices
shifted by the window offset, and advances the window start to
`max(last_found_index, start + window_len / 2)`; with `window_len ≥ 2` the
start strictly increases each iteration, so the loop never stalls.
-/
theorem c4_split_windowing (ediv : ℚ → List (Option ℚ) → List ℕ)
    (cpAt : ℕ → List ℕ → ComparativeStats) (series : List (Option ℚ))
    (wl : ℕ) (maxP minM thr : ℚ) :
    compute_change_points ediv cpAt series wl maxP minM
      = merge cpAt series.length maxP minM (split ediv cpAt series wl (maxP * 10))
  ∧ (∀ fuel start idx, start < series.length →
      splitGo ediv series wl thr (fuel + 1) start idx
        = splitGo ediv series wl thr fuel
            (max ((newWindowIndexes ediv series wl thr start).getLast?.getD 0) (start + wl / 2))
            (idx ++ newWindowIndexes ediv series wl thr start))
  ∧ (∀ start j, j ∈ newWindowIndexes ediv series wl thr start →
      ∃ p ∈ ediv thr (windowSlice series wl start), j = p + start)
  ∧ (∀ start idx, 2 ≤ wl → start < (splitStep ediv series wl thr start idx).1) := by
  refine ⟨rfl, fun fuel start idx h => splitGo_succ ediv series wl thr fuel start idx h,
    fun start j hj => ?_, fun start idx hwl => splitStep_progress ediv series wl thr start idx hwl⟩
  have hj' : j ∈ (ediv thr (windowSlice series wl start)).map (· + start) :=
    (List.perm_insertionSort _ _).mem_iff.mp hj
  rcases List.mem_map.mp hj' with ⟨p, hp, hpe⟩
  exact ⟨p, hp, hpe.symm⟩

/-- Concrete search stub used in witnesses: one change point at in-window index 1. -/
def edivOne : ℚ → List (Option ℚ) → List ℕ := fun _ _ => [1]

/-- Concrete search stub used in witnesses: no change points found. -/
def edivNone : ℚ → List (Option ℚ) → List ℕ := fun _ _ => []

/--
C4 witness: on a three-point series with `window_len = 2`, the first window
iteration unfolds as stated, the found index is the offset-shifted library
index, and the window start advances.
-/
theorem c4_split_windowing_witness :
    splitGo edivOne [some 1, some 2, some 3] 2 (Rat.divInt 1 2) 6 0 []
      = splitGo edivOne [some 1, some 2, some 3] 2 (Rat.divInt 1 2) 5
          (max ((newWindowIndexes edivOne [some 1, some 2, some 3] 2 (Rat.divInt 1 2) 0).getLast?.getD 0)
            (0 + 2 / 2))
          ([] ++ newWindowIndexes edivOne [some 1, some 2, some 3] 2 (Rat.divInt 1 2) 0)
  ∧ (∃ p ∈ edivOne (Rat.divInt 1 2) (windowSlice [some 1, some 2, some 3] 2 0), 1 = p + 0)
  ∧ 0 < (splitStep edivOne [some 1, some 2, some 3] 2 (Rat.divInt 1 2) 0 []).1 := by
  have h := c4_split_windowing edivOne cpAtConst [some 1, some 2, some 3] 2
    (Rat.divInt 1 2) 0 (Rat.divInt 1 2)
  exact ⟨h.2.1 5 0 [] (by decide), h.2.2.1 0 1 (by decide), h.2.2.2 0 [] (by decide)⟩

/--
C10: with `window_len ≥ 2` the window loop of `split` terminates — fuel
`len(series) + 1` always suffices because each iteration strictly increases
`start` (`step = window_len / 2 ≥ 1`); the `window_len ≥ 2` precondition is
not enforced by the source (its `assert` tests a non-empty string constant),
and for `window_len ≤ 1` the loop does not terminate when the windows yield
no candidates: the start never moves, and no amount of fuel completes the loop.
-/
theorem c10_split_termination (ediv : ℚ → List (Option ℚ) → List ℕ)
    (series : List (Option ℚ)) (wl : ℕ) (thr : ℚ) :
    (2 ≤ wl → (splitGo ediv series wl thr (series.length + 1) 0 []).isSome)
  ∧ (∀ start idx, 2 ≤ wl → start < (splitStep ediv series wl thr start idx).1)
  ∧ (wl ≤ 1 → 0 < series.length → (∀ t s, ediv t s = []) →
      ∀ fuel, splitGo ediv series wl thr fuel 0 [] = none) := by
  refine ⟨fun hwl => splitGo_isSome ediv series wl thr hwl _ 0 [] (by omega),
    fun start idx hwl => splitStep_progress ediv series wl thr start idx hwl,
    fun hwl hlen hediv => splitGo_stall ediv series wl thr hwl hlen hediv⟩

/--
C10 witness: on a one-point series the loop with `window_len = 2` terminates,
while with `window_len = 1` and a search that finds nothing even fuel `7`
leaves the loop unfinished.
-/
theorem c10_split_termination_witness :
    (splitGo edivOne [some 1] 2 (Rat.divInt 1 2) 2 0 []).isSome
  ∧ 0 < (splitStep edivOne [some 1] 2 (Rat.divInt 1 2) 0 []).1
  ∧ splitGo edivNone [some 1] 1 (Rat.divInt 1 2) 7 0 [] = none := by
  have h := c10_split_termination edivOne [some 1] 2 (Rat.divInt 1 2)
  have h' := c10_split_termination edivNone [some 1] 1 (Rat.divInt 1 2)
  exact ⟨by simpa using h.1 (by decide), h.2.1 0 [] (by decide),
    h'.2.2 (by decide) (by decide) (fun t s => rfl) 7⟩

/-- One fold step of the forward fill: keep the new value when present. -/
def keepSome (a x : Option ℚ) : Option ℚ :=
  match x with
  | none => a
  | some v => some v

/-- The value carried by the forward-fill sweep after consuming `l`, starting from `prev`. -/
def lastSome1 (prev : Option ℚ) (l : List (Option ℚ)) : Option ℚ :=
  l.foldl keepSome prev

/--
Modelled from the spec: the value `fill_missing` should place at position `i` —
the nearest preceding present value, otherwise the nearest following present
value, otherwise still a gap.
-/
def nearestFill (data : List (Option ℚ)) (i : ℕ) : Option ℚ :=
  match lastSome1 none (data.take (i + 1)) with
  | some v => some v
  | none => (data.drop (i + 1)).findSome? id

theorem ffill_length (prev : Option ℚ) (l : List (Option ℚ)) :
    (ffill prev l).length = l.length := by
  induction l generalizing prev with
  | nil => rfl
  | cons x xs ih => cases x <;> simp [ffill, ih]

theorem lastSome1_cons (prev x : Option ℚ) (t : List (Option ℚ)) :
    lastSome1 prev (x :: t) = lastSome1 (keepSome prev x) t := rfl

theorem ffill_getElem? (l : List (Option ℚ)) :
    ∀ (prev : Option ℚ) (i : ℕ), i < l.length →
      (ffill prev l)[i]? = some (lastSome1 prev (l.take (i + 1))) := by
  induction l with
  | nil => intro prev i h; simp at h
  | cons x xs ih =>
    intro prev i h
    cases x with
    | none =>
      cases i with
      | zero => simp [ffill, lastSome1, keepSome]
      | succ j =>
        simp only [ffill, List.getElem?_cons_succ, List.take_succ_cons, lastSome1_cons]
        exact ih prev j (by simpa using h)
    | some v =>
      cases i with
      | zero => simp [ffill, lastSome1, keepSome]
      | succ j =>
        simp only [ffill, List.getElem?_cons_succ, List.take_succ_cons, lastSome1_cons]
        exact ih (some v) j (by simpa using h)

theorem keepSome_none (a : Option ℚ) : keepSome a none = a := rfl

theorem keepSome_some (a : Option ℚ) (v : ℚ) : keepSome a (some v) = some v := rfl

theorem foldr_keepSome (m : List (Option ℚ)) :
    m.foldr (fun x a => keepSome a x) none = m.findSome? id := by
  induction m with
  | nil => rfl
  | cons x t ih =>
    rw [List.foldr_cons, List.findSome?_cons]
    cases x with
    | none => simp [keepSome_none, ih]
    | some v => simp [keepSome_some]

theorem lastSome1_reverse (m : List (Option ℚ)) :
    lastSome1 none m.reverse = m.findSome? id := by
  rw [lastSome1, List.foldl_reverse]
  exact foldr_keepSome m

theorem lastSome1_eq_none (l : List (Option ℚ)) :
    ∀ prev, lastSome1 prev l = none → prev = none ∧ ∀ x ∈ l, x = none := by
  induction l with
  | nil => intro prev h; exact ⟨h, by simp⟩
  | cons x t ih =>
    intro prev h
    rw [lastSome1_cons] at h
    have hrec := ih (keepSome prev x) h
    cases x with
    | none =>
      refine ⟨hrec.1, fun y hy => ?_⟩
      rcases List.mem_cons.mp hy with hy | hy
      · exact hy
      · exact hrec.2 y hy
    | some v => exact absurd hrec.1 (by simp [keepSome])

theorem ffill_drop_of_prefix_none (l : List (Option ℚ)) :
    ∀ i, (∀ x ∈ l.take i, x = none) →
      (ffill none l).drop i = ffill none (l.drop i) := by
  induction l with
  | nil => intro i _; simp [ffill]
  | cons x t ih =>
    intro i h
    cases i with
    | zero => simp
    | succ j =>
      have hx : x = none := h x (by simp [List.take_succ_cons])
      subst hx
      simp only [ffill, List.drop_succ_cons]
      exact ih j (fun y hy => h y (by simp [List.take_succ_cons]; exact Or.inr hy))

theorem findSome?_ffill (m : List (Option ℚ)) :
    (ffill none m).findSome? id = m.findSome? id := by
  induction m with
  | nil => rfl
  | cons x t ih =>
    cases x with
    | none => simpa [ffill, List.findSome?_cons] using ih
    | some v => simp [ffill, List.findSome?_cons]

theorem ffill_replicate (n : ℕ) :
    ffill none (List.replicate n none) = List.replicate n none := by
  induction n with
  | zero => rfl
  | succ k ih => simp [List.replicate_succ, ffill, ih]

theorem fill_missing_getElem? (data : List (Option ℚ)) (i : ℕ) (hi : i < data.length) :
    (fill_missing data)[i]? = some (nearestFill data i) := by
  have hfl : (ffill none data).length = data.length := ffill_length none data
  have hXlen : (ffill none (ffill none data).reverse).length = data.length := by
    rw [ffill_length, List.length_reverse, hfl]
  have hrev : (fill_missing data)[i]? =
      (ffill none (ffill none data).reverse)[data.length - 1 - i]? := by
    rw [fill_missing, List.getElem?_reverse (by rw [hXlen]; exact hi), hXlen]
  have h1 : data.length - 1 - i < (ffill none data).reverse.length := by
    rw [List.length_reverse, hfl]; omega
  have h2 := ffill_getElem? ((ffill none data).reverse) none (data.length - 1 - i) h1
  have h3 : (ffill none data).reverse.take (data.length - 1 - i + 1)
      = ((ffill none data).drop i).reverse := by
    have he : data.length - 1 - i + 1 = data.length - i := by omega
    rw [he, List.take_reverse, hfl]
    have he2 : data.length - (data.length - i) = i := by omega
    rw [he2]
  have h4 : (fill_missing data)[i]? = some (((ffill none data).drop i).findSome? id) := by
    rw [hrev, h2, h3, lastSome1_reverse]
  rw [h4, nearestFill]
  cases hl : lastSome1 none (data.take (i + 1)) with
  | some v =>
    have h5 : (ffill none data)[i]? = some (some v) := by
      rw [ffill_getElem? data none i hi, hl]
    have hi' : i < (ffill none data).length := by rw [hfl]; exact hi
    have hval : (ffill none data)[i] = some v := by
      have := List.getElem?_eq_getElem hi'
      rw [h5] at this
      exact (Option.some.injEq _ _ ▸ this.symm)
    have h6 : (ffill none data).drop i = some v :: (ffill none data).drop (i + 1) := by
      rw [List.drop_eq_getElem_cons hi', hval]
    rw [h6]
    simp [List.findSome?_cons]
  | none =>
    have htn : ∀ x ∈ data.take (i + 1), x = none := (lastSome1_eq_none _ none hl).2
    have hti : ∀ x ∈ data.take i, x = none := by
      intro x hx
      have hsub : data.take i = (data.take (i + 1)).take i := by
        rw [List.take_take]
        congr 1
        omega
      exact htn x (List.take_subset _ _ (hsub ▸ hx))
    have h7 : i < (data.take (i + 1)).length := by
      rw [List.length_take]
      omega
    have hdi : data[i] = none := by
      have hmem : data[i] ∈ data.take (i + 1) := by
        have h8 := List.getElem_mem h7
        rwa [List.getElem_take] at h8
      exact htn _ hmem
    have h9 : (ffill none data).drop i = ffill none (data.drop i) :=
      ffill_drop_of_prefix_none data i hti
    have h10 : data.drop i = none :: data.drop (i + 1) := by
      rw [List.drop_eq_getElem_cons hi, hdi]
    rw [h9, h10]
    show some ((ffill none (none :: data.drop (i + 1))).findSome? id) = _
    simp only [ffill, List.findSome?_cons]
    rw [findSome?_ffill]
    rfl

/--
C5: `fill_missing` fills every gap with the nearest preceding present value;
a gap with no preceding present value receives the nearest following present
value in the backward pass; an all-gaps list stays all-gaps; and the two
concrete examples of the specification hold (with `1.2 = 6/5`, `0.5 = 1/2`,
`4.3 = 43/10` as rationals).
-/
theorem c5_fill_missing :
    fill_missing [none, none, some 1, some (Rat.divInt 6 5), some (Rat.divInt 1 2)]
      = [some 1, some 1, some 1, some (Rat.divInt 6 5), some (Rat.divInt 1 2)]
  ∧ fill_missing [some 1, some (Rat.divInt 6 5), none, none, some (Rat.divInt 43 10)]
      = [some 1, some (Rat.divInt 6 5), some (Rat.divInt 6 5), some (Rat.divInt 6 5),
          some (Rat.divInt 43 10)]
  ∧ (∀ n, fill_missing (List.replicate n none) = List.replicate n none)
  ∧ ∀ (data : List (Option ℚ)) (i : ℕ), i < data.length →
      (fill_missing data)[i]? = some (nearestFill data i) := by
  refine ⟨by decide, by decide, fun n => ?_, fill_missing_getElem?⟩
  rw [fill_missing, ffill_replicate, List.reverse_replicate, ffill_replicate,
    List.reverse_replicate]

/--
C5 witness: the leading gap of `[None, 1.0]` is resolved by the
nearest-present-value characterisation.
-/
theorem c5_fill_missing_witness :
    (fill_missing [none, some 1])[0]? = some (nearestFill [none, some 1] 0) :=
  c5_fill_missing.2.2.2 [none, some 1] 0 (by decide)

theorem stableBegin_eq (index : ℕ) :
    ∀ (cps : List SeriesChangePoint) (b : ℕ),
      cps.Pairwise (fun a c => a.index < c.index) →
      stableBegin index b cps
        = ((cps.map SeriesChangePoint.index).filter (fun c => c ≤ index)).getLastD b := by
  intro cps
  induction cps with
  | nil => intro b _; rfl
  | cons cp rest ih =>
    intro b hp
    rcases List.pairwise_cons.mp hp with ⟨hhead, htail⟩
    simp only [stableBegin, List.map_cons, List.filter_cons]
    by_cases h : index < cp.index
    · rw [if_pos h]
      have hfr : (rest.map SeriesChangePoint.index).filter (fun c => c ≤ index) = [] := by
        rw [List.filter_eq_nil_iff]
        intro a ha
        rcases List.mem_map.mp ha with ⟨x, hx, hxe⟩
        have := hhead x hx
        simp only [decide_eq_true_eq]
        omega
      have hcond : (decide (cp.index ≤ index)) = false := by
        simp only [decide_eq_false_iff_not]
        omega
      rw [hcond]
      simp only [Bool.false_eq_true, if_false, hfr, List.getLastD_nil]
    · rw [if_neg h]
      have hcond : (decide (cp.index ≤ index)) = true := by
        simp only [decide_eq_true_eq]
        omega
      rw [hcond]
      simp only [if_true]
      rw [List.getLastD_cons]
      exact ih cp.index htail

theorem stableEndRev_eq (index : ℕ) :
    ∀ (l : List SeriesChangePoint) (e : ℕ),
      l.Pairwise (fun a c => c.index < a.index) →
      stableEndRev index e l
        = ((l.map SeriesChangePoint.index).filter (fun c => index < c)).getLastD e := by
  intro l
  induction l with
  | nil => intro e _; rfl
  | cons cp rest ih =>
    intro e hp
    rcases List.pairwise_cons.mp hp with ⟨hhead, htail⟩
    simp only [stableEndRev, List.map_cons, List.filter_cons]
    by_cases h : cp.index ≤ index
    · rw [if_pos h]
      have hfr : (rest.map SeriesChangePoint.index).filter (fun c => index < c) = [] := by
        rw [List.filter_eq_nil_iff]
        intro a ha
        rcases List.mem_map.mp ha with ⟨x, hx, hxe⟩
        have := hhead x hx
        simp only [decide_eq_true_eq]
        omega
      have hcond : (decide (index < cp.index)) = false := by
        simp only [decide_eq_false_iff_not]
        omega
      rw [hcond]
      simp only [Bool.false_eq_true, if_false, hfr, List.getLastD_nil]
    · rw [if_neg h]
      have hcond : (decide (index < cp.index)) = true := by
        simp only [decide_eq_true_eq]
        omega
      rw [hcond]
      simp only [if_true]
      rw [List.getLastD_cons]
      exact ih cp.index htail

theorem foldl_max_sorted :
    ∀ (cs : List ℕ) (c : ℕ), (c :: cs).Pairwise (· < ·) → cs.foldl max c = cs.getLastD c := by
  intro cs
  induction cs with
  | nil => intro c _; rfl
  | cons x xs ih =>
    intro c hp
    rcases List.pairwise_cons.mp hp with ⟨hhead, htail⟩
    have hcx : c < x := hhead x (List.mem_cons_self x xs)
    simp only [List.foldl_cons, List.getLastD_cons]
    rw [max_eq_right (le_of_lt hcx)]
    exact ih x htail

theorem foldl_min_sorted :
    ∀ (cs : List ℕ) (c : ℕ), (c :: cs).Pairwise (· < ·) → cs.foldl min c = c := by
  intro cs
  induction cs with
  | nil => intro c _; rfl
  | cons x xs ih =>
    intro c hp
    rcases List.pairwise_cons.mp hp with ⟨hhead, htail⟩
    have hcx : c < x := hhead x (List.mem_cons_self x xs)
    simp only [List.foldl_cons]
    rw [min_eq_left (le_of_lt hcx)]
    apply ih
    rw [List.pairwise_cons]
    exact ⟨fun y hy => hhead y (List.mem_cons_of_mem x hy), (List.pairwise_cons.mp htail).2⟩

/-- Concrete change-point list with change points at indices 4 and 6. -/
def cp46 : List SeriesChangePoint :=
  [⟨"m", 4, 4, ⟨1, 2, 0, 0, 1⟩⟩, ⟨"m", 6, 6, ⟨1, 2, 0, 0, 1⟩⟩]

/--
C7: on a metric's (ascending) change-point list, `get_stable_range` returns
the nearest change-point index at or below the queried index (`0` when there
is none) and the nearest change-point index strictly above it (the series
length when there is none); in particular with change points at `{4, 6}` and
series length `10` it returns `(0, 4)` on `[0, 4)`, `(4, 6)` on `[4, 6)` and
`(6, 10)` from `6` on.
-/
theorem c7_stable_range :
    (∀ (cps : List SeriesChangePoint) (n index : ℕ),
        cps.Pairwise (fun a c => a.index < c.index) →
        getStableRange cps n index
          = (nearestBelow (cps.map SeriesChangePoint.index) index,
             nearestAbove (cps.map SeriesChangePoint.index) n index))
  ∧ (∀ i, i < 4 → getStableRange cp46 10 i = (0, 4))
  ∧ (∀ i, 4 ≤ i → i < 6 → getStableRange cp46 10 i = (4, 6))
  ∧ (∀ i, 6 ≤ i → getStableRange cp46 10 i = (6, 10)) := by
  refine ⟨?_, ?_, ?_, ?_⟩
  · intro cps n index hs
    have hsidx : (cps.map SeriesChangePoint.index).Pairwise (· < ·) :=
      List.pairwise_map.mpr hs
    rw [getStableRange, Prod.mk.injEq]
    constructor
    · rw [stableBegin_eq index cps 0 hs, nearestBelow]
      cases hf : (cps.map SeriesChangePoint.index).filter (fun c => c ≤ index) with
      | nil => rfl
      | cons c cs =>
        have hps : (c :: cs).Pairwise (· < ·) := hf ▸ hsidx.filter _
        rw [List.getLastD_cons, ← foldl_max_sorted cs c hps]
    · have hrev : (cps.reverse).Pairwise (fun a c => c.index < a.index) :=
        List.pairwise_reverse.mpr hs
      rw [stableEndRev_eq index cps.reverse n hrev, List.map_reverse, List.filter_reverse,
        List.getLastD_eq_getLast?, List.getLast?_reverse, nearestAbove]
      cases hf : (cps.map SeriesChangePoint.index).filter (fun c => index < c) with
      | nil => rfl
      | cons c cs =>
        have hps : (c :: cs).Pairwise (· < ·) := hf ▸ hsidx.filter _
        show c = cs.foldl min c
        exact (foldl_min_sorted cs c hps).symm
  · intro i h
    interval_cases i <;> decide
  · intro i h1 h2
    interval_cases i <;> decide
  · intro i h
    rcases Nat.exists_eq_add_of_le h with ⟨j, rfl⟩
    rw [getStableRange]
    have hb : stableBegin (6 + j) 0 cp46 = 6 := by
      simp only [cp46, stableBegin]
      rw [if_neg (by omega), if_neg (by omega)]
    have he : stableEndRev (6 + j) 10 cp46.reverse = 10 := by
      simp only [cp46, List.reverse_cons, List.reverse_nil, List.nil_append,
        List.cons_append, stableEndRev]
      rw [if_pos (by omega)]
    rw [hb, he]

/--
C7 witness: for index 5 between the change points at 4 and 6, the stable
range is given by the nearest change points below and above.
-/
theorem c7_stable_range_witness :
    getStableRange cp46 10 5
      = (nearestBelow (cp46.map SeriesChangePoint.index) 5,
         nearestAbove (cp46.map SeriesChangePoint.index) 10 5) :=
  c7_stable_range.1 cp46 10 5 (by decide)

/--
C8: analyzing a `Series` whose time sequence is empty (and whose data
sequences are therefore empty, by the `Series` constructor invariant) is a
valid, non-exceptional outcome: every metric's change-point list is empty and
the grouped change-point list is empty, on both the windowed and the original
e-divisive paths (the latter assuming the external search returns no change
points on an empty series).
-/
theorem c8_empty_series (ediv edivOrig : ℚ → List (Option ℚ) → List ℕ)
    (cpAt cpAtOrig : List (Option ℚ) → ℕ → List ℕ → ComparativeStats)
    (s : Series) (o : AnalysisOptions)
    (_ht : s.time = [])
    (hd : ∀ p ∈ s.data, p.2 = [])
    (horig : o.orig_edivisive = true → ∀ thr, edivOrig thr [] = []) :
    (∀ p ∈ (Series.analyze ediv edivOrig cpAt cpAtOrig s o).change_points, p.2 = [])
  ∧ (Series.analyze ediv edivOrig cpAt cpAtOrig s o).change_points_by_time = [] := by
  have hmap : ∀ p ∈ computeChangePointsMap ediv edivOrig cpAt cpAtOrig s o, p.2 = [] := by
    intro p hp
    rw [computeChangePointsMap] at hp
    rcases List.mem_map.mp hp with ⟨mv, hmv, hpe⟩
    have hv : mv.2 = [] := hd mv hmv
    subst hpe
    simp only [hv]
    by_cases ho : o.orig_edivisive
    · rw [if_pos ho]
      have hfm : fill_missing ([] : List (Option ℚ)) = [] := rfl
      rw [hfm, compute_change_points_orig, horig ho o.max_pvalue]
      rfl
    · rw [if_neg ho]
      have hfm : fill_missing ([] : List (Option ℚ)) = [] := rfl
      rw [hfm]
      have hsplit : split ediv (cpAt []) [] o.window_len (o.max_pvalue * 10) = [] := by
        simp [split, splitGo]
      rw [compute_change_points, hsplit]
      rfl
  refine ⟨hmap, ?_⟩
  show groupChangePointsByTime s (computeChangePointsMap ediv edivOrig cpAt cpAtOrig s o) = []
  have hflat :
      ((computeChangePointsMap ediv edivOrig cpAt cpAtOrig s o).map Prod.snd).flatten
        = [] := by
    rw [List.flatten_eq_nil_iff]
    intro l hl
    rcases List.mem_map.mp hl with ⟨p, hp, hpe⟩
    exact hpe ▸ hmap p hp
  rw [groupChangePointsByTime, hflat]
  rfl

/-- Concrete series-level tester stub used in witnesses. -/
def cpAtSeries : List (Option ℚ) → ℕ → List ℕ → ComparativeStats :=
  fun _ => cpAtConst

/-- Concrete empty series used in the C8 witness. -/
def sEmpty : Series :=
  ⟨"test", none, [], [("m", ⟨1, 1, ""⟩)], [("m", [])], []⟩

/-- Default analysis options (window 50, p-value 1/1000, magnitude 0, windowed path). -/
def oDefault : AnalysisOptions :=
  ⟨50, Rat.divInt 1 1000, 0, false⟩

/-- C8 witness: analyzing a concrete empty-time series yields no change-point groups. -/
theorem c8_empty_series_witness :
    (Series.analyze edivNone edivNone cpAtSeries cpAtSeries sEmpty oDefault).change_points_by_time
      = [] :=
  (c8_empty_series edivNone edivNone cpAtSeries cpAtSeries sEmpty oDefault rfl
    (by simp [sEmpty]) (fun h => absurd h (by simp [oDefault]))).2

/--
Embeds `compute_change_points_orig` with the randomness of the external search
made explicit: `EDivisive(seed=None, ...)` with a
`QHatPermutationsSignificanceTester` (100 random permutations) never seeds the
random number generator, so the library call's result depends on the ambient
global RNG state, modelled as an extra argument `g` that differs between
successive calls.
-/
def compute_change_points_origR (edivOrig : ℕ → ℚ → List (Option ℚ) → List ℕ)
    (cpAtOrig : ℕ → List ℕ → ComparativeStats) (g : ℕ)
    (series : List (Option ℚ)) (maxP : ℚ) : List ChangePoint :=
  let idx := edivOrig g maxP series
  let we := 0 :: (idx ++ [series.length])
  idx.map (fun i => ⟨i, cpAtOrig i we⟩)

/--
Embeds `AnalyzedSeries.__compute_change_points` with the ambient RNG state `g`
threaded into the `orig_edivisive` branch (whose permutation tester draws
random permutations); the windowed t-test branch performs no random draws and
ignores `g`.
-/
def computeChangePointsMapR (ediv : ℚ → List (Option ℚ) → List ℕ)
    (edivOrig : ℕ → ℚ → List (Option ℚ) → List ℕ)
    (cpAt : List (Option ℚ) → ℕ → List ℕ → ComparativeStats)
    (cpAtOrig : ℕ → List (Option ℚ) → ℕ → List ℕ → ComparativeStats)
    (g : ℕ) (s : Series) (o : AnalysisOptions) : List (String × List SeriesChangePoint) :=
  s.data.map (fun mv =>
    let values := fill_missing mv.2
    let cps :=
      if o.orig_edivisive then
        compute_change_points_origR edivOrig (cpAtOrig g values) g values o.max_pvalue
      else
        compute_change_points ediv (cpAt values) values o.window_len o.max_pvalue
          o.min_magnitude
    (mv.1, cps.map (fun c => ⟨mv.1, c.index, pyGet s.time c.index 0, c.stats⟩)))

/--
Embeds `Series.analyze` with the ambient RNG state `g` of the unseeded
permutation tester made explicit; two successive Python calls run with
different ambient states because `seed=None` never seeds the generator.
-/
def Series.analyzeR (ediv : ℚ → List (Option ℚ) → List ℕ)
    (edivOrig : ℕ → ℚ → List (Option ℚ) → List ℕ)
    (cpAt : List (Option ℚ) → ℕ → List ℕ → ComparativeStats)
    (cpAtOrig : ℕ → List (Option ℚ) → ℕ → List ℕ → ComparativeStats)
    (g : ℕ) (s : Series) (o : AnalysisOptions) : AnalyzedSeries :=
  let m := computeChangePointsMapR ediv edivOrig cpAt cpAtOrig g s o
  ⟨s, o, m, groupChangePointsByTime s m⟩

/--
Concrete state-sensitive permutation search used in the C9 counterexample: in
one RNG state the resampled significance test accepts no split, in another it
accepts the split at index 1 — the kind of run-to-run variation an unseeded
permutation test with 100 permutations exhibits near the threshold.
-/
def edivOrigRand : ℕ → ℚ → List (Option ℚ) → List ℕ :=
  fun g _ _ => if g = 0 then [] else [1]

/-- Concrete state-indexed tester stub for the permutation-tester path. -/
def cpAtOrigRand : ℕ → List (Option ℚ) → ℕ → List ℕ → ComparativeStats :=
  fun _ _ => cpAtConst

/-- Concrete two-point series used in the C9 counterexample. -/
def sTwoPoints : Series :=
  ⟨"test", none, [0, 1], [("m", ⟨1, 1, ""⟩)], [("m", [some 1, some 2])], []⟩

/-- Analysis options selecting the original (permutation-tester) e-divisive path. -/
def oOrig : AnalysisOptions :=
  ⟨50, Rat.divInt 1 1000, 0, true⟩

/--
C9 counterexample: with `orig_edivisive = true` the pipeline delegates to
`EDivisive(seed=None)` with a `QHatPermutationsSignificanceTester`, an
unseeded random-resampling test, so two calls on the same `Series` and the
same `AnalysisOptions` run under different ambient RNG states and can return
different change-point maps — analysis is not deterministic for every
`AnalysisOptions`, and the significance testing of that path does involve
randomness.
-/
theorem c9_counterexample :
    (Series.analyzeR edivNone edivOrigRand cpAtSeries cpAtOrigRand 0 sTwoPoints oOrig).change_points
      ≠ (Series.analyzeR edivNone edivOrigRand cpAtSeries cpAtOrigRand 1 sTwoPoints oOrig).change_points := by
  decide

/--
C9 (amended): on the windowed t-test path (`orig_edivisive = false`, the
default) analysis is deterministic: the t-test tester is a pure function of
its numeric inputs (the source draws no random numbers there and passes
`seed=None`), so two calls with equal series and equal options yield identical
change-point maps and identical group lists whatever the ambient RNG states,
and the change-point map depends only on the `time` and `data` fields and the
options, not on the series name, branch, metric metadata or attributes. The
`orig_edivisive = true` variant delegates to an unseeded permutation tester
and carries no determinism guarantee.
-/
theorem c9_amended (ediv : ℚ → List (Option ℚ) → List ℕ)
    (edivOrig : ℕ → ℚ → List (Option ℚ) → List ℕ)
    (cpAt : List (Option ℚ) → ℕ → List ℕ → ComparativeStats)
    (cpAtOrig : ℕ → List (Option ℚ) → ℕ → List ℕ → ComparativeStats)
    (g₁ g₂ : ℕ) (s₁ s₂ : Series) (o₁ o₂ : AnalysisOptions)
    (hs : s₁ = s₂) (ho : o₁ = o₂) (hw : o₁.orig_edivisive = false) :
    ((Series.analyzeR ediv edivOrig cpAt cpAtOrig g₁ s₁ o₁).change_points
        = (Series.analyzeR ediv edivOrig cpAt cpAtOrig g₂ s₂ o₂).change_points)
  ∧ ((Series.analyzeR ediv edivOrig cpAt cpAtOrig g₁ s₁ o₁).change_points_by_time
        = (Series.analyzeR ediv edivOrig cpAt cpAtOrig g₂ s₂ o₂).change_points_by_time)
  ∧ (∀ (t₁ t₂ : String) (b₁ b₂ : Option String) (m₁ m₂ : List (String × MetricInfo))
        (a₁ a₂ : List (String × List String)) (time : List ℤ)
        (data : List (String × List (Option ℚ))),
      computeChangePointsMapR ediv edivOrig cpAt cpAtOrig g₁ ⟨t₁, b₁, time, m₁, data, a₁⟩ o₁
        = computeChangePointsMapR ediv edivOrig cpAt cpAtOrig g₂ ⟨t₂, b₂, time, m₂, data, a₂⟩ o₁) := by
  subst hs
  subst ho
  have hm : ∀ (s : Series),
      computeChangePointsMapR ediv edivOrig cpAt cpAtOrig g₁ s o₁
        = computeChangePointsMapR ediv edivOrig cpAt cpAtOrig g₂ s o₁ := by
    intro s
    simp [computeChangePointsMapR, hw]
  refine ⟨hm s₁, congrArg (groupChangePointsByTime s₁) (hm s₁), ?_⟩
  intro t₁ t₂ b₁ b₂ m₁ m₂ a₁ a₂ time data
  simp [computeChangePointsMapR, hw]

/--
C9 amended witness: analyzing a concrete series twice on the windowed path,
under two different ambient RNG states, gives the same change-point map.
-/
theorem c9_amended_witness :
    (Series.analyzeR edivNone edivOrigRand cpAtSeries cpAtOrigRand 0 sTwoPoints oDefault).change_points
      = (Series.analyzeR edivNone edivOrigRand cpAtSeries cpAtOrigRand 1 sTwoPoints oDefault).change_points :=
  (c9_amended edivNone edivOrigRand cpAtSeries cpAtOrigRand 0 1 sTwoPoints sTwoPoints
    oDefault oDefault rfl rfl rfl).1
